import Mathlib

/-!
Verification of the keyv key-value facade (src/src/index.js) against its
specification. The JavaScript source is shallowly embedded: JavaScript
runtime values become the inductive `JSValue`; promise-based control flow
becomes explicit state passing over the storage adapter state, with the
single-threaded cooperative schedule of the JavaScript event loop modelled
by sequencing awaits in program order; fallible steps (property access on
null or undefined, which throws a TypeError and rejects the promise) return
`Except JSError`. `Date.now()` is passed in explicitly as an integer clock
value at each call. The completion order of concurrently dispatched
asynchronous tasks is an explicit parameter (a list of indices) wherever it
can influence observable results, so theorems quantify over all schedules.
-/

/-- Model of JavaScript runtime values as the facade manipulates them:
undefined, null, booleans, numbers (integral milliseconds timestamps in this
program), strings, and plain objects as ordered field lists. -/
inductive JSValue where
  | undefined
  | null
  | bool (b : Bool)
  | num (n : Int)
  | str (s : String)
  | obj (fields : List (String × JSValue))

/-- Errors a modelled operation can reject with. Reading a property of null
or undefined throws a TypeError in JavaScript. -/
inductive JSError where
  | typeError
deriving DecidableEq, Repr

/-- JavaScript property access `v.f`: throws a TypeError on null and
undefined, yields the field on an object holding it, and undefined on every
other primitive and on objects lacking the field. -/
def JSValue.getField : JSValue → String → Except JSError JSValue
  | .undefined, _ => .error .typeError
  | .null, _ => .error .typeError
  | .obj fields, f =>
      .ok (match fields.find? (fun p => p.1 == f) with
           | some p => p.2
           | none => .undefined)
  | _, _ => .ok .undefined

/-- Whether `typeof v === "string"` holds. -/
def JSValue.isStr : JSValue → Bool
  | .str _ => true
  | _ => false

/-- Value occupying a ttl argument slot: undefined (omitted), null (produced
by the mset argument normalization), or a number of milliseconds. -/
inductive TtlVal where
  | undef
  | nul
  | num (n : Int)
deriving DecidableEq, Repr

/-- Serialization codec pair, `opts.serialize` and `opts.deserialize` of the
source (default json-buffer, an external opaque round-tripping pair). -/
structure Codec where
  serialize : JSValue → String
  deserialize : String → JSValue

/-- Storage adapter interface over adapter state `σ`, as the facade consumes
it: required get, set (receiving the physical key, the raw stored form and
the forwarded ttl), delete and clear, plus the optional native batch forms
mget and mset probed for by the source. The spec declares get free of side
effects, so it is modelled as pure in the adapter state. -/
structure Store (σ : Type) where
  get : σ → String → JSValue
  set : σ → String → JSValue → TtlVal → σ
  del : σ → String → Bool × σ
  clear : σ → σ
  mget : Option (σ → List String → Option Int → List JSValue)
  mset : Option (σ → List String → List JSValue → TtlVal → Option Int → σ)

/-- One constructed facade instance: the fields of `this.opts` after the
constructor merged defaults, the uri record and the explicit options. The
field `nspace` embeds `opts.namespace`. -/
structure Keyv (σ : Type) where
  store : Store σ
  nspace : String
  ttl : Option Int
  codec : Codec
  concurrency : Option Int

/-- Source `_getKeyPrefix(key)`: the physical key is the namespace, a colon
and the logical key, with no escaping. -/
def Keyv.getKeyPrefix {σ : Type} (K : Keyv σ) (key : String) : String :=
  K.nspace ++ ":" ++ key

/-- Source `delete(key)`: delegate to the adapter delete on the prefixed
key. -/
def Keyv.delete {σ : Type} (K : Keyv σ) (s : σ) (key : String) : Bool × σ :=
  K.store.del s (K.getKeyPrefix key)

/-- Source `clear()`: delegate to the adapter clear. -/
def Keyv.clear {σ : Type} (K : Keyv σ) (s : σ) : σ :=
  K.store.clear s

/-- First stage of `_getPostprocess`: deserialize only a textual stored
form, pass every other raw form through unchanged. -/
def decodeStage (c : Codec) (data : JSValue) : JSValue :=
  match data with
  | .str t => c.deserialize t
  | d => d

/-- The expiration test `typeof data.expires === "number" && Date.now() >
data.expires`, applied to the already-read expires property. -/
def expiredAt (expires : JSValue) (now : Int) : Bool :=
  match expires with
  | .num e => decide (now > e)
  | _ => false

/-- Second stage of `_getPostprocess`, after decoding: an undefined entry is
a miss; an entry whose expires property is a number in the past is deleted
through the facade (awaited) and reported as a miss; otherwise the entry or
its value property is returned, per raw mode. Property access can throw. -/
def Keyv.expirationStage {σ : Type} (K : Keyv σ) (s : σ) (key : String)
    (data : JSValue) (now : Int) (raw : Bool) : Except JSError (JSValue × σ) :=
  match data with
  | .undefined => .ok (.undefined, s)
  | data =>
    match data.getField "expires" with
    | .error e => .error e
    | .ok expires =>
      if expiredAt expires now then
        .ok (.undefined, (K.delete s key).2)
      else if raw then
        .ok (data, s)
      else
        match data.getField "value" with
        | .error e => .error e
        | .ok v => .ok (v, s)

/-- Source `_getPostprocess(key, data, opts)`: the two promise stages in
sequence. -/
def Keyv.getPostprocess {σ : Type} (K : Keyv σ) (s : σ) (key : String)
    (data : JSValue) (now : Int) (raw : Bool) : Except JSError (JSValue × σ) :=
  K.expirationStage s key (decodeStage K.codec data) now raw

/-- Source `get(key, opts)`: read the prefixed key from the adapter, then
postprocess. -/
def Keyv.get {σ : Type} (K : Keyv σ) (s : σ) (key : String) (now : Int)
    (raw : Bool) : Except JSError (JSValue × σ) :=
  K.getPostprocess s key (K.store.get s (K.getKeyPrefix key)) now raw

/-- The ttl resolution of `_setPreprocess`: default an undefined ttl to the
configured `opts.ttl`, then turn an (explicit or defaulted) ttl of exactly 0
back into undefined. -/
def resolveTtl (defaultTtl : Option Int) (ttl : TtlVal) : TtlVal :=
  let t := match ttl with
    | .undef => match defaultTtl with
      | some d => TtlVal.num d
      | none => TtlVal.undef
    | t => t
  if t = TtlVal.num 0 then TtlVal.undef else t

/-- The expires timestamp `_setPreprocess` stores: now plus the resolved
ttl when that is a number, otherwise null. -/
def expiresOf (defaultTtl : Option Int) (ttl : TtlVal) (now : Int) : JSValue :=
  match resolveTtl defaultTtl ttl with
  | .num t => .num (now + t)
  | _ => .null

/-- Source `_setPreprocess(value, ttl)`: wrap the value and its expires
timestamp into an entry object and serialize the whole envelope. -/
def Keyv.setPreprocess {σ : Type} (K : Keyv σ) (value : JSValue) (ttl : TtlVal)
    (now : Int) : String :=
  K.codec.serialize (.obj [("value", value), ("expires", expiresOf K.ttl ttl now)])

/-- Source `set(key, value, ttl)`: encode, then hand the adapter the
prefixed key, the serialized entry, and the original ttl argument verbatim
(the reassignment of ttl inside _setPreprocess is local to that method);
resolve to true. -/
def Keyv.set {σ : Type} (K : Keyv σ) (s : σ) (key : String) (value : JSValue)
    (ttl : TtlVal) (now : Int) : σ × Bool :=
  (K.store.set s (K.getKeyPrefix key) (.str (K.setPreprocess value ttl now)) ttl, true)

/-- Unbounded mode of `concurrentMap`: Promise.all over Array.map keeps the
results in argument order, so the transform output stands at the index of
its input. -/
def concurrentMapUnbounded {α β : Type} (items : List α) (f : α → Nat → β) :
    List β :=
  items.mapIdx (fun i a => f a i)

/-- Comparison the bounded mode of `concurrentMap` sorts its accumulated
results with: the comparator (a, b) => a.idx - b.idx orders pairs by
index. -/
def idxLe {β : Type} (a b : Nat × β) : Prop :=
  a.1 ≤ b.1

instance {β : Type} : DecidableRel (idxLe (β := β)) :=
  fun a b => Nat.decLe a.1 b.1

instance {β : Type} : IsTotal (Nat × β) idxLe :=
  ⟨fun a b => Nat.le_total a.1 b.1⟩

instance {β : Type} : IsTrans (Nat × β) idxLe :=
  ⟨fun _ _ _ => Nat.le_trans⟩

/-- Accumulated results of the bounded mode of `concurrentMap`: the workers
share a single iterator over the entries of the item array, so every index
is claimed by exactly one worker and contributes exactly one pair
(idx, result) to the shared results array; the order in which pairs are
pushed is the completion order of the transforms, given here as the explicit
schedule `completion` (which lists each index exactly once for any actual
run of the worker loops). -/
def boundedResults {α β : Type} (items : List α) (f : α → Nat → β)
    (completion : List Nat) : List (Nat × β) :=
  completion.filterMap (fun i => (items.get? i).map (fun a => (i, f a i)))

/-- Source `concurrentMap(items, func, concurrency)`: a falsy (absent or
zero) or negative concurrency runs the unbounded mode; otherwise
min(length, concurrency) worker loops share one iterator, the (idx, result)
pairs are accumulated in completion order, sorted by idx once all workers
finish, and projected to the results. The transforms themselves are pure
here; theorems quantify over every completion schedule. -/
def concurrentMap {α β : Type} (items : List α) (f : α → Nat → β)
    (concurrency : Option Int) (completion : List Nat) : List β :=
  match concurrency with
  | none => concurrentMapUnbounded items f
  | some c =>
    if c ≤ 0 then concurrentMapUnbounded items f
    else (List.insertionSort idxLe (boundedResults items f completion)).map Prod.snd

/-- The concurrency resolution `(opts && opts.concurrency) ||
this.opts.concurrency` used by mget and mset: a present nonzero
per-call concurrency wins, otherwise the configured one applies. -/
def resolveConcurrency (optsConc defaultConc : Option Int) : Option Int :=
  match optsConc with
  | some c => if c = 0 then defaultConc else some c
  | none => defaultConc

/-- Postprocessing pass of `mget`: each logical key is paired with the raw
form read for it and put through `_getPostprocess` under its own key. The
source dispatches this pass through concurrentMap, whose results stand in
input order whatever the completion order (theorem C4); the pass is
therefore embedded as the traversal in index order, threading the adapter
state through the expired-entry deletes and rejecting on the first
error. -/
def Keyv.mgetPost {σ : Type} (K : Keyv σ) (s : σ) (pairs : List (String × JSValue))
    (now : Int) (raw : Bool) : Except JSError (List JSValue × σ) :=
  match pairs with
  | [] => .ok ([], s)
  | (key, d) :: rest =>
    match K.getPostprocess s key d now raw with
    | .error e => .error e
    | .ok (v, s') =>
      match K.mgetPost s' rest now raw with
      | .error e => .error e
      | .ok (vs, s'') => .ok (v :: vs, s'')

/-- Source `mget(keys, opts)`: prefix every key; read the raw forms through
the native adapter mget when the adapter exposes one, else through
concurrentMap over the single-key adapter get (an arbitrary completion
schedule); then postprocess each result under its logical key. -/
def Keyv.mget {σ : Type} (K : Keyv σ) (s : σ) (keys : List String) (now : Int)
    (raw : Bool) (optsConc : Option Int) (completion : List Nat) :
    Except JSError (List JSValue × σ) :=
  let keysPrefixed := keys.map K.getKeyPrefix
  let concurrency := resolveConcurrency optsConc K.concurrency
  let data := match K.store.mget with
    | some m => m s keysPrefixed concurrency
    | none => concurrentMap keysPrefixed (fun k _ => K.store.get s k) concurrency completion
  K.mgetPost s (keys.zip data) now raw

/-- Reference reading of the mget contract, following the words of the
spec: compute the physical keys; take the raw forms from the native batch
read when the adapter has one, else from the single adapter get applied to
each prefixed key in input order; then re-apply the expiration policy per
logical key, in input order. -/
def Keyv.mgetSpec {σ : Type} (K : Keyv σ) (s : σ) (keys : List String) (now : Int)
    (raw : Bool) (optsConc : Option Int) : Except JSError (List JSValue × σ) :=
  let concurrency := resolveConcurrency optsConc K.concurrency
  let data := match K.store.mget with
    | some m => m s (keys.map K.getKeyPrefix) concurrency
    | none => keys.map (fun k => K.store.get s (K.getKeyPrefix k))
  K.mgetPost s (keys.zip data) now raw

/-- Options record recognized by mset. -/
structure MsetOpts where
  concurrency : Option Int
deriving DecidableEq, Repr

/-- Body of `mset` after its argument normalization: prefix the keys,
resolve the concurrency, encode every value with the shared ttl, then write
through the native adapter mset when present, else through the single
adapter set per pair. The source dispatches the fallback writes through
concurrentMap with their results discarded; since only the adapter-state
effects of the writes remain, they are embedded in index order per the
cooperative schedule. -/
def Keyv.msetCore {σ : Type} (K : Keyv σ) (s : σ) (keys : List String)
    (values : List JSValue) (ttl : TtlVal) (opts : Option MsetOpts) (now : Int) :
    σ × Bool :=
  let keysPrefixed := keys.map K.getKeyPrefix
  let concurrency := resolveConcurrency (opts.bind MsetOpts.concurrency) K.concurrency
  let encoded := values.map (fun v => JSValue.str (K.setPreprocess v ttl now))
  match K.store.mset with
  | some m => (m s keysPrefixed encoded ttl concurrency, true)
  | none =>
    ((keysPrefixed.zip encoded).foldl (fun st p => K.store.set st p.1 p.2 ttl) s, true)

/-- Source `mset(keys, values, ttl, opts)` in its parallel-sequences call
shape: Array.isArray(keys) holds, so the normalization leaves the arguments
in place; an omitted opts argument receives the default empty record, which
resolves concurrency exactly as an absent one. -/
def Keyv.msetArrays {σ : Type} (K : Keyv σ) (s : σ) (keys : List String)
    (values : List JSValue) (ttl : TtlVal) (opts : Option MsetOpts) (now : Int) :
    σ × Bool :=
  K.msetCore s keys values ttl opts now

/-- Source `mset` in its single-mapping call shape: the source destructures
keys, values, ttl, opts into Object.keys of the mapping, Object.values of
the mapping, the second argument and the third argument, taking the mapping
in its stable enumeration order (the field order of the object, modelled by
the list order). The subsequent swap guarded by typeof ttl === "object"
fires in this typed argument space only for a null ttl with absent opts,
where it replaces the pair (null ttl, undefined opts) by (null ttl, null
opts) — observationally the identity, since a null opts resolves
concurrency exactly as an undefined one. -/
def Keyv.msetMap {σ : Type} (K : Keyv σ) (s : σ) (m : List (String × JSValue))
    (ttl : TtlVal) (opts : Option MsetOpts) (now : Int) : σ × Bool :=
  K.msetCore s (m.map Prod.fst) (m.map Prod.snd) ttl opts now

/-- The default in-memory store is a JavaScript Map from physical keys to
raw stored forms, modelled as an insertion-ordered association list without
duplicate keys. -/
def MapStore : Type := List (String × JSValue)

/-- Map.prototype.get: the bound value, undefined when the key is absent. -/
def MapStore.get (s : MapStore) (k : String) : JSValue :=
  match s.find? (fun p => p.1 == k) with
  | some p => p.2
  | none => .undefined

/-- Map.prototype.set: rebind an existing key in place, else append. -/
def MapStore.set : MapStore → String → JSValue → MapStore
  | [], k, v => [(k, v)]
  | p :: rest, k, v =>
    if p.1 == k then (k, v) :: rest else p :: MapStore.set rest k v

/-- Map.prototype.delete: report whether the key was present and remove
it. -/
def MapStore.del (s : MapStore) (k : String) : Bool × MapStore :=
  (s.any (fun p => p.1 == k), s.filter (fun p => p.1 != k))

/-- The default in-memory adapter: a Map, which has no mget, no mset, and
ignores the extra ttl argument its set receives. -/
def mapStore : Store MapStore where
  get := MapStore.get
  set := fun s k v _ => MapStore.set s k v
  del := MapStore.del
  clear := fun _ => []
  mget := none
  mset := none

/-- A facade over the default in-memory adapter. -/
def mkMapKeyv (ns : String) (c : Codec) (ttl conc : Option Int) : Keyv MapStore :=
  ⟨mapStore, ns, ttl, c, conc⟩

/-- One recorded adapter set call: physical key, raw stored form, and the
ttl argument the adapter received. -/
structure SetCall where
  key : String
  raw : JSValue
  ttl : TtlVal

/-- Instrumented adapter that records every set call it receives, used to
observe what the facade forwards. -/
def recordStore : Store (List SetCall) where
  get := fun _ _ => .undefined
  set := fun s k v t => s ++ [⟨k, v, t⟩]
  del := fun s _ => (false, s)
  clear := fun _ => []
  mget := none
  mset := none

/-- Adapter whose get resolves to null rather than undefined for every key,
as some storage backends do for an absent row. -/
def nullStore : Store Unit where
  get := fun _ _ => .null
  set := fun s _ _ _ => s
  del := fun s _ => (false, s)
  clear := fun s => s
  mget := none
  mset := none

/-- Codec that maps every value to one fixed token and parses every token
back to one fixed value; a concrete codec that round-trips on that value,
used to instantiate theorems. -/
def constCodec (e : JSValue) : Codec :=
  ⟨fun _ => "E", fun _ => e⟩

/-- Expires computation read literally off the words of claim C3: take the
explicit ttl if provided, else the configured default; an explicit ttl of
exactly 0 forces null; when the ttl so resolved is a number, expires is now
plus the ttl; otherwise null. -/
def claimedExpires (defaultTtl : Option Int) (ttl : TtlVal) (now : Int) : JSValue :=
  if ttl = TtlVal.num 0 then JSValue.null
  else
    match (match ttl with
           | TtlVal.undef => match defaultTtl with
             | some d => TtlVal.num d
             | none => TtlVal.undef
           | t => t) with
    | TtlVal.num t => JSValue.num (now + t)
    | _ => JSValue.null

/-- Expires computation of claim C3 as amended: take the explicit ttl if
provided, else the configured default; a resolved ttl of exactly 0, whether
explicit or coming from the default, forces null; a nonzero numeric
resolved ttl gives now plus the ttl; otherwise null. -/
def amendedExpires (defaultTtl : Option Int) (ttl : TtlVal) (now : Int) : JSValue :=
  let resolved := match ttl with
    | TtlVal.undef => match defaultTtl with
      | some d => TtlVal.num d
      | none => TtlVal.undef
    | t => t
  match resolved with
  | TtlVal.num t => if t = 0 then JSValue.null else JSValue.num (now + t)
  | _ => JSValue.null

/-- Codec fixture parsing every stored text to one fixed live entry. -/
def liveEntryCodec : Codec :=
  constCodec (.obj [("value", .num 42), ("expires", .null)])

/-- Codec fixture parsing every stored text to one fixed entry that expired
at time 5. -/
def expiredEntryCodec : Codec :=
  constCodec (.obj [("value", .num 1), ("expires", .num 5)])

theorem MapStore.get_set_eq (s : MapStore) (k : String) (v : JSValue) :
    (MapStore.set s k v).get k = v := by
  induction s with
  | nil => simp [MapStore.set, MapStore.get, List.find?]
  | cons p rest ih =>
    by_cases hp : p.1 = k
    · simp [MapStore.set, MapStore.get, List.find?, hp]
    · simpa [MapStore.set, MapStore.get, List.find?, hp] using ih

theorem MapStore.get_set_ne (s : MapStore) (k k' : String) (v : JSValue)
    (h : k' ≠ k) : (MapStore.set s k v).get k' = s.get k' := by
  have hkk : (k == k') = false := by
    simp only [beq_eq_false_iff_ne]
    exact Ne.symm h
  induction s with
  | nil => simp [MapStore.set, MapStore.get, List.find?, hkk]
  | cons p rest ih =>
    by_cases hp : p.1 = k
    · have hpk : (p.1 == k') = false := by rw [hp]; exact hkk
      simp [MapStore.set, MapStore.get, List.find?, hp, hkk, hpk]
    · have hb : (p.1 == k) = false := by
        simp only [beq_eq_false_iff_ne]
        exact hp
      by_cases hp' : p.1 = k'
      · simp [MapStore.set, MapStore.get, List.find?, hb, hp', h]
      · have hb' : (p.1 == k') = false := by
          simp only [beq_eq_false_iff_ne]
          exact hp'
        simpa [MapStore.set, MapStore.get, List.find?, hb, hb'] using ih

theorem cross_namespace_keys_differ (k1 k2 : String) :
    ("a" ++ ":" ++ k1 : String) ≠ "b" ++ ":" ++ k2 := by
  intro h
  have h' := congrArg String.data h
  simp [String.data_append] at h'

theorem getPostprocess_value_const {σ : Type} (K : Keyv σ) (s₁ s₂ : σ) (key : String)
    (d : JSValue) (now : Int) (raw : Bool) :
    (K.getPostprocess s₁ key d now raw).map Prod.fst
      = (K.getPostprocess s₂ key d now raw).map Prod.fst := by
  unfold Keyv.getPostprocess Keyv.expirationStage
  generalize decodeStage K.codec d = d'
  cases d' <;> simp [JSValue.getField, Except.map] <;> split_ifs <;>
    simp [Except.map]

/-- C7: every operation derives the physical key deterministically as
namespace, colon, logical key with no escaping; consequently facades with
the distinct separator-free namespaces "a" and "b" over the shared default
in-memory store have disjoint physical key sets, a write through either
facade leaves the raw form stored under every physical key of the other
untouched, and a read through the other resolves to the same value before
and after that write. -/
theorem namespaced_facades_are_isolated (c c' : Codec) (t t' conc conc' : Option Int) :
    (∀ (σ : Type) (K : Keyv σ) (k : String), K.getKeyPrefix k = K.nspace ++ ":" ++ k) ∧
    (∀ k1 k2 : String,
      (mkMapKeyv "a" c t conc).getKeyPrefix k1
        ≠ (mkMapKeyv "b" c' t' conc').getKeyPrefix k2) ∧
    (∀ (s : MapStore) (k k' : String) (v : JSValue) (ttl : TtlVal) (now : Int),
      MapStore.get ((mkMapKeyv "a" c t conc).set s k v ttl now).1
          ((mkMapKeyv "b" c' t' conc').getKeyPrefix k')
        = MapStore.get s ((mkMapKeyv "b" c' t' conc').getKeyPrefix k')) ∧
    (∀ (s : MapStore) (k k' : String) (v : JSValue) (ttl : TtlVal) (now now' : Int)
      (raw : Bool),
      ((mkMapKeyv "b" c' t' conc').get
          ((mkMapKeyv "a" c t conc).set s k v ttl now).1 k' now' raw).map Prod.fst
        = ((mkMapKeyv "b" c' t' conc').get s k' now' raw).map Prod.fst) ∧
    (∀ (s : MapStore) (k k' : String) (v : JSValue) (ttl : TtlVal) (now now' : Int)
      (raw : Bool),
      ((mkMapKeyv "a" c t conc).get
          ((mkMapKeyv "b" c' t' conc').set s k v ttl now).1 k' now' raw).map Prod.fst
        = ((mkMapKeyv "a" c t conc).get s k' now' raw).map Prod.fst) := by
  have hba : ∀ k k' : String, ("b" ++ ":" ++ k' : String) ≠ "a" ++ ":" ++ k := by
    intro k k' h
    have h' := congrArg String.data h
    simp [String.data_append] at h'
  have hab : ∀ k k' : String, ("a" ++ ":" ++ k' : String) ≠ "b" ++ ":" ++ k := by
    intro k k' h
    have h' := congrArg String.data h
    simp [String.data_append] at h'
  refine ⟨fun σ K k => rfl, fun k1 k2 => cross_namespace_keys_differ k1 k2, ?_, ?_, ?_⟩
  · intro s k k' v ttl now
    exact MapStore.get_set_ne _ _ _ _ (hba k k')
  · intro s k k' v ttl now now' raw
    simp only [Keyv.get, mkMapKeyv, Keyv.set, Keyv.getKeyPrefix, mapStore]
    rw [MapStore.get_set_ne _ _ _ _ (hba k k')]
    exact getPostprocess_value_const _ _ _ _ _ _ _
  · intro s k k' v ttl now now' raw
    simp only [Keyv.get, mkMapKeyv, Keyv.set, Keyv.getKeyPrefix, mapStore]
    rw [MapStore.get_set_ne _ _ _ _ (hab k k')]
    exact getPostprocess_value_const _ _ _ _ _ _ _

/-- C8: on every read the deserializer runs exactly when the raw stored form
is textual; any non-string stored form passes through the decode stage
unchanged, so the whole postprocess on it is the expiration check and result
extraction applied to the form itself, for any configured codec. -/
theorem deserialize_only_on_strings :
    (∀ (c : Codec) (t : String), decodeStage c (.str t) = c.deserialize t) ∧
    (∀ (σ : Type) (K : Keyv σ) (c' : Codec) (s : σ) (key : String) (d : JSValue)
      (now : Int) (raw : Bool), d.isStr = false →
      decodeStage c' d = d ∧
      K.getPostprocess s key d now raw = K.expirationStage s key d now raw) := by
  refine ⟨fun c t => rfl, fun σ K c' s key d now raw h => ?_⟩
  cases d <;> simp_all [JSValue.isStr, decodeStage, Keyv.getPostprocess]

/-- C9: the ttl the adapter set receives is the original third argument of
the facade set verbatim: an omitted ttl is forwarded as undefined even when
a default is configured (the default shapes only the encoded expires
timestamp), and an explicit 0 is forwarded as 0. Shown against the
recording adapter, for every ttl argument, default, codec and namespace. -/
theorem set_forwards_original_ttl (ns : String) (dttl conc : Option Int) (c : Codec)
    (trace : List SetCall) (k : String) (v : JSValue) (ttlArg : TtlVal) (now : Int) :
    Keyv.set ⟨recordStore, ns, dttl, c, conc⟩ trace k v ttlArg now
      = (trace ++ [⟨ns ++ ":" ++ k,
          .str (c.serialize (.obj [("value", v), ("expires", expiresOf dttl ttlArg now)])),
          ttlArg⟩], true) :=
  rfl

/-- C10: when the adapter get resolves to null rather than undefined for the
read key, the facade get does not report a miss: the expiration check reads
the expires property of null and the call rejects with a TypeError. -/
theorem null_from_adapter_rejects {σ : Type} (St : Store σ) (s : σ) (ns : String)
    (dttl conc : Option Int) (c : Codec) (key : String) (now : Int) (raw : Bool)
    (h : St.get s (ns ++ ":" ++ key) = .null) :
    Keyv.get ⟨St, ns, dttl, c, conc⟩ s key now raw = .error .typeError := by
  simp [Keyv.get, Keyv.getPostprocess, Keyv.getKeyPrefix, h, decodeStage,
    Keyv.expirationStage, JSValue.getField]

theorem null_from_adapter_rejects_witness :
    Keyv.get ⟨nullStore, "keyv", none, constCodec .undefined, none⟩ () "k" 0 false
      = .error .typeError :=
  null_from_adapter_rejects nullStore () "keyv" none none (constCodec .undefined)
    "k" 0 false rfl

theorem expiresOf_eq_amendedExpires (d : Option Int) (ttl : TtlVal) (now : Int) :
    expiresOf d ttl now = amendedExpires d ttl now := by
  rcases ttl with _ | _ | n
  · rcases d with _ | t
    · rfl
    · by_cases h : t = 0 <;> simp [expiresOf, resolveTtl, amendedExpires, h]
  · rfl
  · by_cases h : n = 0 <;> simp [expiresOf, resolveTtl, amendedExpires, h]

/-- C3 counterexample: with a configured default ttl of 0 and the ttl
argument omitted, the resolved ttl is the number 0, so the claim words give
expires = now + 0, but the source zeroes the ttl out after defaulting and
stores expires = null. At now = 7 the two computations disagree. -/
theorem claimed_expires_fails_at_zero_default :
    expiresOf (some 0) TtlVal.undef 7 = JSValue.null ∧
    claimedExpires (some 0) TtlVal.undef 7 = JSValue.num 7 ∧
    JSValue.null ≠ JSValue.num 7 :=
  ⟨rfl, rfl, fun h => JSValue.noConfusion h⟩

/-- C3 as amended: set defaults an undefined ttl to the configured default;
a resolved ttl of 0 — whether the explicit argument or the default — forces
the stored expires to null; a nonzero numeric resolved ttl stores expires =
now + ttl; otherwise expires is null. -/
theorem setPreprocess_stores_amended_expires {σ : Type} (K : Keyv σ) (v : JSValue)
    (ttl : TtlVal) (now : Int) :
    K.setPreprocess v ttl now
      = K.codec.serialize (.obj [("value", v), ("expires", amendedExpires K.ttl ttl now)]) := by
  rw [Keyv.setPreprocess, expiresOf_eq_amendedExpires]

/-- C1: when the raw form the adapter returned for a get decodes to an entry
whose expires field is the number e and the current time exceeds e, the get
resolves to undefined and the resulting adapter state is the one after the
delete of that logical key (awaited through the facade delete, hence on the
prefixed physical key) was applied. -/
theorem get_expired_entry_misses_and_deletes {σ : Type} (St : Store σ) (s : σ)
    (ns key : String) (dttl conc : Option Int) (c : Codec) (now e : Int)
    (raw : Bool) (fields : List (String × JSValue))
    (hdec : decodeStage c (St.get s (ns ++ ":" ++ key)) = .obj fields)
    (hexp : JSValue.getField (.obj fields) "expires" = .ok (.num e))
    (hpast : now > e) :
    Keyv.get ⟨St, ns, dttl, c, conc⟩ s key now raw
      = .ok (.undefined, (St.del s (ns ++ ":" ++ key)).2) := by
  have hpast' : expiredAt (JSValue.num e) now = true := by
    simp [expiredAt, hpast]
  simp only [Keyv.get, Keyv.getPostprocess, Keyv.getKeyPrefix]
  rw [hdec]
  simp only [Keyv.expirationStage]
  rw [show (JSValue.obj fields).getField "expires" = .ok (.num e) from hexp]
  simp [hpast', Keyv.delete, Keyv.getKeyPrefix]

theorem get_expired_entry_misses_and_deletes_witness :
    Keyv.get ⟨mapStore, "keyv", none, expiredEntryCodec, none⟩
        [("keyv:k", .str "E")] "k" 10 false
      = .ok (.undefined, (mapStore.del [("keyv:k", .str "E")] ("keyv" ++ ":" ++ "k")).2) :=
  get_expired_entry_misses_and_deletes mapStore [("keyv:k", .str "E")] "keyv" "k"
    none none expiredEntryCodec 10 5 false
    [("value", .num 1), ("expires", .num 5)] rfl rfl (by decide)

/-- C2: over the default in-memory store, for every key and every value the
configured codec round-trips (stated as the round-trip hypothesis at the
entry this set encodes), a set followed by a get of the same key resolves to
that value whenever the written entry carries no expiry or an expiry not yet
passed at read time. -/
theorem set_then_get_returns_value (c : Codec) (ns k : String)
    (dttl conc : Option Int) (v : JSValue) (s : MapStore) (ttlArg : TtlVal)
    (now now' : Int)
    (hrt : c.deserialize (c.serialize
             (.obj [("value", v), ("expires", expiresOf dttl ttlArg now)]))
           = .obj [("value", v), ("expires", expiresOf dttl ttlArg now)])
    (hlive : ∀ e : Int, expiresOf dttl ttlArg now = .num e → now' ≤ e) :
    (mkMapKeyv ns c dttl conc).get
        ((mkMapKeyv ns c dttl conc).set s k v ttlArg now).1 k now' false
      = .ok (v, ((mkMapKeyv ns c dttl conc).set s k v ttlArg now).1) := by
  have hnotexp : expiredAt (expiresOf dttl ttlArg now) now' = false := by
    unfold expiresOf
    cases h : resolveTtl dttl ttlArg with
    | num t =>
      have := hlive (now + t) (by rw [expiresOf, h])
      simp [expiredAt]
      omega
    | undef => simp [expiredAt]
    | nul => simp [expiredAt]
  simp only [Keyv.get, mkMapKeyv, Keyv.set, Keyv.getKeyPrefix, mapStore]
  rw [MapStore.get_set_eq]
  simp only [Keyv.getPostprocess, Keyv.setPreprocess, decodeStage]
  rw [hrt]
  simp [Keyv.expirationStage, JSValue.getField, List.find?, hnotexp]

theorem mapIdx_get?_eq {α β : Type} (g : Nat → α → β) (l : List α) (i : Nat) :
    (l.mapIdx g).get? i = (l.get? i).map (g i) := by
  induction l generalizing g i with
  | nil => simp
  | cons a t ih =>
    cases i with
    | zero => simp [List.mapIdx_cons]
    | succ n => simp [List.mapIdx_cons, ih]

theorem filterMap_eq_map_of_some {α γ : Type} (p : α → Option γ) (g : α → γ)
    (l : List α) (h : ∀ a ∈ l, p a = some (g a)) : l.filterMap p = l.map g := by
  induction l with
  | nil => rfl
  | cons a t ih =>
    rw [List.filterMap_cons, h a (List.mem_cons_self a t), List.map_cons,
      ih (fun x hx => h x (List.mem_cons_of_mem a hx))]

theorem get?_eq_some_getD {α : Type} (l : List α) (i : Nat) (d : α)
    (h : i < l.length) : l.get? i = some (l.getD i d) := by
  rw [List.get?_eq_getElem?, List.getD_eq_getElem?_getD, List.getElem?_eq_getElem h]
  rfl

theorem pairs_eq_of_fst_eq {β : Type} (F : Nat → β) :
    ∀ (l l' : List (Nat × β)), l.map Prod.fst = l'.map Prod.fst →
      (∀ p ∈ l, p.2 = F p.1) → (∀ p ∈ l', p.2 = F p.1) → l = l' := by
  intro l
  induction l with
  | nil =>
    intro l' hf _ _
    cases l' with
    | nil => rfl
    | cons b t' => simp at hf
  | cons a t ih =>
    intro l' hf hl hl'
    cases l' with
    | nil => simp at hf
    | cons b t' =>
      simp only [List.map_cons, List.cons.injEq] at hf
      have ha : a.2 = F a.1 := hl a (List.mem_cons_self a t)
      have hb : b.2 = F b.1 := hl' b (List.mem_cons_self b t')
      have hab : a = b := Prod.ext hf.1 (by rw [ha, hb, hf.1])
      rw [hab, ih t' hf.2 (fun p hp => hl p (List.mem_cons_of_mem a hp))
        (fun p hp => hl' p (List.mem_cons_of_mem b hp))]

theorem boundedResults_perm_canonical {α β : Type} (items : List α)
    (f : α → Nat → β) (completion : List Nat) (d : α)
    (h : List.Perm completion (List.range items.length)) :
    List.Perm (boundedResults items f completion)
      ((List.range items.length).map (fun i => (i, f (items.getD i d) i))) := by
  have hcanon : (List.range items.length).filterMap
        (fun i => (items.get? i).map (fun a => (i, f a i)))
      = (List.range items.length).map (fun i => (i, f (items.getD i d) i)) := by
    refine filterMap_eq_map_of_some _ _ _ fun i hi => ?_
    rw [List.mem_range] at hi
    rw [get?_eq_some_getD items i d hi]
    rfl
  have hfm := h.filterMap (fun i => (items.get? i).map (fun a => (i, f a i)))
  rw [hcanon] at hfm
  exact hfm

theorem sorted_eq_canonical {β : Type} (n : Nat) (F : Nat → β)
    (l : List (Nat × β))
    (hperm : List.Perm l ((List.range n).map (fun i => (i, F i))))
    (hsort : l.Sorted idxLe) :
    l = (List.range n).map (fun i => (i, F i)) := by
  have hcanon_fst : ((List.range n).map (fun i => (i, F i))).map Prod.fst
      = List.range n := by
    have hid : (Prod.fst ∘ fun i : Nat => (i, F i)) = fun i => i := rfl
    rw [List.map_map, hid]
    exact List.map_id' (List.range n)
  have hfst_perm : List.Perm (l.map Prod.fst) (List.range n) := by
    have := hperm.map Prod.fst
    rwa [hcanon_fst] at this
  have hfst_sorted : (l.map Prod.fst).Sorted (· ≤ ·) :=
    List.Pairwise.map _ (fun _ _ hab => hab) hsort
  have hnodup : (l.map Prod.fst).Nodup := hfst_perm.nodup_iff.mpr (List.nodup_range n)
  have hlt : (l.map Prod.fst).Sorted (· < ·) := hfst_sorted.lt_of_le hnodup
  have hfst_eq : l.map Prod.fst = List.range n := by
    haveI : IsAntisymm Nat (· < ·) := ⟨fun _ _ h1 h2 => absurd h2 (Nat.lt_asymm h1)⟩
    exact List.eq_of_perm_of_sorted hfst_perm hlt (List.sorted_lt_range n)
  refine pairs_eq_of_fst_eq F l _ (by rw [hfst_eq, hcanon_fst]) ?_ ?_
  · intro p hp
    have := hperm.subset hp
    obtain ⟨i, _, rfl⟩ := List.mem_map.mp this
    rfl
  · intro p hp
    obtain ⟨i, _, rfl⟩ := List.mem_map.mp hp
    rfl

theorem concurrentMap_eq_unbounded {α β : Type} (items : List α) (f : α → Nat → β)
    (conc : Option Int) (completion : List Nat)
    (h : List.Perm completion (List.range items.length)) :
    concurrentMap items f conc completion = concurrentMapUnbounded items f := by
  cases conc with
  | none => rfl
  | some c =>
    unfold concurrentMap
    by_cases hc : c ≤ 0
    · simp [hc]
    · simp only [hc, if_false]
      cases items with
      | nil =>
        have hnil : completion = [] := by
          have hlen := h.length_eq
          simp at hlen
          exact hlen
        simp [boundedResults, hnil, concurrentMapUnbounded]
      | cons a rest =>
        have hperm2 : List.Perm
            (List.insertionSort idxLe (boundedResults (a :: rest) f completion))
            ((List.range (a :: rest).length).map
              (fun i => (i, f ((a :: rest).getD i a) i))) :=
          (List.perm_insertionSort idxLe _).trans
            (boundedResults_perm_canonical (a :: rest) f completion a h)
        have heq := sorted_eq_canonical (a :: rest).length
          (fun i => f ((a :: rest).getD i a) i) _ hperm2
          (List.sorted_insertionSort idxLe _)
        rw [heq, List.map_map]
        refine List.ext fun i => ?_
        rw [List.get?_map, concurrentMapUnbounded, mapIdx_get?_eq]
        by_cases hi : i < (a :: rest).length
        · rw [get?_eq_some_getD (a :: rest) i a hi, List.get?_eq_getElem?,
            List.getElem?_range hi]
          rfl
        · have h1 : (List.range (a :: rest).length).get? i = none := by
            rw [List.get?_eq_getElem?]
            exact List.getElem?_eq_none (by simpa using hi)
          have h2 : (a :: rest).get? i = none := by
            rw [List.get?_eq_getElem?]
            exact List.getElem?_eq_none (by omega)
          rw [h1, h2]
          rfl

/-- C4: the concurrency-limited mapper returns, at every index, the
transform applied to the input at that index: the output order matches the
input order for every completion schedule of the dispatched transforms, in
unbounded mode (Promise.all keeps argument order) and in bounded mode (the
accumulated pairs of index and result are sorted by index once all workers
finish). -/
theorem concurrentMap_preserves_input_order {α β : Type} (items : List α)
    (f : α → Nat → β) (conc : Option Int) (completion : List Nat)
    (h : List.Perm completion (List.range items.length)) :
    concurrentMap items f conc completion = items.mapIdx (fun i a => f a i) ∧
    ∀ i : Nat, (concurrentMap items f conc completion).get? i
      = (items.get? i).map (fun a => f a i) := by
  have he := concurrentMap_eq_unbounded items f conc completion h
  exact ⟨he, fun i => by rw [he]; exact mapIdx_get?_eq _ _ _⟩

theorem concurrentMap_preserves_input_order_witness :
    concurrentMap [10, 20, 30] (fun (a : Nat) i => a + i) (some 2) [2, 0, 1]
      = List.mapIdx (fun i a => a + i) [10, 20, 30] ∧
    ∀ i : Nat, (concurrentMap [10, 20, 30] (fun (a : Nat) i => a + i)
        (some 2) [2, 0, 1]).get? i
      = (([10, 20, 30] : List Nat).get? i).map (fun a => a + i) :=
  concurrentMap_preserves_input_order [10, 20, 30] (fun a i => a + i) (some 2)
    [2, 0, 1] (by decide)

/-- C5: mget reads the raw forms through the adapter native mget on the
prefixed keys when the adapter exposes one, else through the mapper applying
the single adapter get per prefixed key; in both cases it then re-applies
decoding and the expiration policy to each raw form under its logical key,
and the resolved sequence stands in the order of the input keys: under every
completion schedule of the mapper, mget coincides with the reference reading
mgetSpec, which processes the keys in input order. -/
theorem mget_matches_ordered_reference {σ : Type} (K : Keyv σ) (s : σ)
    (keys : List String) (now : Int) (raw : Bool) (optsConc : Option Int)
    (completion : List Nat)
    (h : List.Perm completion (List.range keys.length)) :
    K.mget s keys now raw optsConc completion
      = K.mgetSpec s keys now raw optsConc := by
  have hdata : concurrentMap (keys.map K.getKeyPrefix) (fun k _ => K.store.get s k)
      (resolveConcurrency optsConc K.concurrency) completion
      = keys.map (fun k => K.store.get s (K.getKeyPrefix k)) := by
    rw [concurrentMap_eq_unbounded _ _ _ _ (by rw [List.length_map]; exact h)]
    unfold concurrentMapUnbounded
    refine List.ext fun i => ?_
    rw [mapIdx_get?_eq, List.get?_map, List.get?_map, Option.map_map]
    rfl
  simp only [Keyv.mget, Keyv.mgetSpec]
  cases hm : K.store.mget with
  | some m => rfl
  | none => rw [hdata]

theorem mget_matches_ordered_reference_witness :
    (mkMapKeyv "keyv" (constCodec .undefined) none none).mget [] ["x", "y"]
        0 false none [1, 0]
      = (mkMapKeyv "keyv" (constCodec .undefined) none none).mgetSpec []
        ["x", "y"] 0 false none :=
  mget_matches_ordered_reference (mkMapKeyv "keyv" (constCodec .undefined) none none)
    [] ["x", "y"] 0 false none [1, 0] (by decide)

/-- C6: mset called with a single mapping writes exactly the state that mset
called with the parallel key and value sequences taken in the mapping's
stable enumeration order writes — the same physical keys bound to the same
encoded raw forms, through the same adapter path — and both call shapes
resolve to the same result, for every adapter, ttl and options. -/
theorem mset_map_shape_equals_sequences_shape {σ : Type} (K : Keyv σ) (s : σ)
    (m : List (String × JSValue)) (ttl : TtlVal) (opts : Option MsetOpts)
    (now : Int) :
    K.msetMap s m ttl opts now
      = K.msetArrays s (m.map Prod.fst) (m.map Prod.snd) ttl opts now :=
  rfl

theorem set_then_get_returns_value_witness :
    (mkMapKeyv "keyv" liveEntryCodec none none).get
        ((mkMapKeyv "keyv" liveEntryCodec none none).set [] "k" (.num 42) .undef 0).1
        "k" 0 false
      = .ok (.num 42,
          ((mkMapKeyv "keyv" liveEntryCodec none none).set [] "k" (.num 42) .undef 0).1) :=
  set_then_get_returns_value liveEntryCodec "keyv" "k" none none (.num 42) []
    .undef 0 0 rfl (fun _ h => JSValue.noConfusion h)
